import Mathlib

/-!
# dep-updater: manifest patcher, branch reconciler, project worker, fan-out orchestrator

A shallow embedding of `updater/updater.go`, `updater/repository/git.go`, `updater/cfg/config.go`
and `actions.go`, followed by theorems about it.

Conventions of the embedding.

* A Go `string` that the program searches byte by byte (the manifest, the library names and
  versions) is a `Text`, a list of byte values.  Strings that the program only compares,
  concatenates and prints (paths, branch names, messages) are Lean `String`s.
* The outside world (the go-git library and the file system) is a record `Host σ` of primitive
  operations over an arbitrary state type `σ`.  Theorems quantify over every `Host`; `simpleHost`
  is one small concrete host on which the definitions are evaluated.
* The calls that change a workspace (`ChangeToBranch`, `CreateBranch`, `CommitAndPush`,
  `ioutil.WriteFile`) are recorded, in order, in the `calls` field of the program state.
* A run-time panic (slice bounds out of range) is the outcome `Outcome.panic`.
* The `trace` package (logging) is not embedded.
-/

namespace DepUpdater

set_option maxRecDepth 100000

/-! ## Go strings -/

/-- A Go string seen as its bytes. -/
abbrev Text := List Nat

/-- The bytes (UTF-8) of a string literal. -/
def bytes (s : String) : Text := s.toUTF8.data.toList.map UInt8.toNat

/-- The byte of the comma character. -/
def comma : Nat := 44

/-- Go `strings.HasPrefix(s, p)`. -/
def startsWith : Text → Text → Bool
  | _, [] => true
  | [], _ :: _ => false
  | c :: cs, p :: ps => c == p && startsWith cs ps

/-- Go `strings.Index(s, substr)`: the index of the first occurrence of `substr` in `s`,
or `-1` when there is none. -/
def Index : Text → Text → Int
  | [], substr => if substr = [] then 0 else -1
  | c :: cs, substr =>
    if startsWith (c :: cs) substr then 0
    else
      let k := Index cs substr
      if k < 0 then -1 else k + 1

/-- Go slice expression `s[a:]`; `none` is the run-time panic for bounds out of range. -/
def sliceFrom (s : Text) (a : Int) : Option Text :=
  if 0 ≤ a ∧ a ≤ s.length then some (s.drop a.toNat) else none

/-- Go slice expression `s[a:b]`; `none` is the run-time panic for bounds out of range. -/
def slice (s : Text) (a b : Int) : Option Text :=
  if 0 ≤ a ∧ a ≤ b ∧ b ≤ s.length then some ((s.drop a.toNat).take (b.toNat - a.toNat)) else none

/-- Go `strings.Replace(s, old, new, 1)`: `s` with its first occurrence of `old` replaced by
`new` (an empty `old` matches at the beginning of `s`). -/
def Replace1 (s old new : Text) : Text :=
  if old = new then s
  else
    let j := Index s old
    if j < 0 then s
    else s.take j.toNat ++ new ++ s.drop (j.toNat + old.length)

/-- Go `unicode.IsSpace`. -/
def IsSpace (c : Char) : Bool :=
  let n := c.toNat
  (9 ≤ n && n ≤ 13) || n == 32 || n == 133 || n == 160 || n == 5760 ||
    (8192 ≤ n && n ≤ 8202) || n == 8232 || n == 8233 || n == 8239 || n == 8287 || n == 12288

/-- Go `strings.TrimSpace`. -/
def TrimSpace (s : String) : String :=
  String.mk ((s.toList.dropWhile IsSpace).reverse.dropWhile IsSpace).reverse

/-! ## cfg/config.go -/

namespace cfg

/-- The `Project` struct of `cfg/config.go`. -/
structure Project where
  Enabled : Bool
  Name : String
  Push : Bool
  Clone : Bool
deriving DecidableEq, Repr

/-- The `Repository` struct of `cfg/config.go`. -/
structure Repository where
  URL : String
  Username : String
  Password : String
deriving DecidableEq, Repr

/-- The `Config` struct of `cfg/config.go`.  `Libraries` is a Go map, given by its entries
(keys pairwise different). -/
structure Config where
  WorkspaceHome : String
  Repository : Repository
  Projects : List Project
  WorkingBranch : String
  CreateFrom : String
  Libraries : List (Text × Text)
deriving DecidableEq, Repr

end cfg

/-- Map lookup `newLibs[libName]`: the value of the key, the empty string when it is absent. -/
def mapGet (m : List (Text × Text)) (k : Text) : Text :=
  match m with
  | [] => []
  | (k1, v1) :: rest => if k1 = k then v1 else mapGet rest k

/-! ## The host: go-git and the file system -/

/-- An error value of go-git; `ErrReferenceNotFound` is `plumbing.ErrReferenceNotFound`. -/
inductive GitError where
  | ErrReferenceNotFound : GitError
  | other (msg : String) : GitError
deriving DecidableEq, Repr

/-- The method `Error()` of a go-git error. -/
def GitError.Error : GitError → String
  | .ErrReferenceNotFound => "reference not found"
  | .other msg => msg

/-- A `plumbing.Reference`: a full reference name and the hash it points to. -/
structure Reference where
  Name : String
  Hash : String
deriving DecidableEq, Repr

/-- The `AuthConfig` struct of `repository/git.go`. -/
structure AuthConfig where
  Username : String
  Password : String
deriving DecidableEq, Repr

/-- The primitives of go-git and of the file system that the program calls, over a state `σ`.
A repository is named by the path it was opened at.  An `Option String` result is a Go `error`
(`none` is `nil`). -/
structure Host (σ : Type) where
  /-- The call `git.PlainOpenWithOptions(path, ...)`: the error, if any. -/
  PlainOpen : σ → String → Option String
  /-- The call `r.g.Reference(name, true)` on the repository at `path`. -/
  Reference : σ → (path : String) → (name : String) → Except GitError DepUpdater.Reference
  /-- The call `r.g.Head()`. -/
  Head : σ → (path : String) → Except String DepUpdater.Reference
  /-- The call `r.g.Storer.SetReference(ref)`. -/
  SetReference : σ → (path : String) → DepUpdater.Reference → Option String × σ
  /-- The call `w.Checkout(&git.CheckoutOptions{Branch: name})` on the worktree. -/
  Checkout : σ → (path : String) → (name : String) → Option String × σ
  /-- The call `w.Commit(comment, &git.CommitOptions{All: true})`. -/
  Commit : σ → (path : String) → (comment : String) → Option String × σ
  /-- The call `r.g.Push(&git.PushOptions{RemoteName: "origin", Auth: auth})`. -/
  Push : σ → (path : String) → Option AuthConfig → Option String × σ
  /-- The call `ioutil.ReadFile(path)`; `none` when it returns an error. -/
  ReadFile : σ → (path : String) → Option Text
  /-- The call `ioutil.WriteFile(path, data, 0644)`. -/
  WriteFile : σ → (path : String) → Text → Option String × σ

/-- A workspace-changing call made by the updater. -/
inductive Call where
  | ChangeToBranch (path branchName : String) : Call
  | CreateBranch (path fromBranchName newBranchName : String) : Call
  | CommitAndPush (path comment : String) : Call
  | WriteFile (path : String) (data : Text) : Call
deriving DecidableEq, Repr

/-- The state of a run: the host state and the workspace-changing calls made so far. -/
structure St (σ : Type) where
  sys : σ
  calls : List Call

/-- How a Go function that returns an `error` ends. -/
inductive Outcome where
  | nil : Outcome
  | err (msg : String) : Outcome
  | panic : Outcome
deriving DecidableEq, Repr

/-! ## repository/git.go -/

namespace repository

/-- The constant `branchRefPath`. -/
def branchRefPath : String := "refs/heads/"

/-- The `Config` struct of `repository/git.go`. -/
structure Config where
  Auth : Option AuthConfig
  RemoteURL : String
  WorkspacePath : String
  ProjectName : String
deriving DecidableEq, Repr

/-- The `Repository` wrapper; `g` is the path at which the go-git repository was opened. -/
structure Repository where
  g : String
  auth : Option AuthConfig
  url : String
  projectName : String
deriving DecidableEq, Repr

/-- The function `New` of `repository/git.go`. -/
def New {σ : Type} (H : Host σ) (config : Config) (st : St σ) : Except String Repository :=
  match H.PlainOpen st.sys config.WorkspacePath with
  | some e => .error ("error openning repository " ++ config.WorkspacePath ++ "... " ++ e)
  | none =>
    .ok { g := config.WorkspacePath, auth := config.Auth, url := config.RemoteURL,
          projectName := config.ProjectName }

/-- The method `Repository.ChangeToBranch`. -/
def ChangeToBranch {σ : Type} (H : Host σ) (r : Repository) (branchName : String) (st : St σ) :
    Option String × St σ :=
  let st1 : St σ := { st with calls := st.calls ++ [Call.ChangeToBranch r.g branchName] }
  let refPath := branchRefPath ++ branchName
  match H.Reference st1.sys r.g refPath with
  | .error e => (some ("change to branch fail... " ++ e.Error), st1)
  | .ok ref =>
    match H.Checkout st1.sys r.g ref.Name with
    | (some e, sys2) =>
      (some ("can't possible checkout to '" ++ branchName ++ "' branch... " ++ e),
        { st1 with sys := sys2 })
    | (none, sys2) => (none, { st1 with sys := sys2 })

/-- The method `Repository.CreateBranch`. -/
def CreateBranch {σ : Type} (H : Host σ) (r : Repository) (fromBranchName newBranchName : String)
    (st : St σ) : Option String × St σ :=
  let st1 : St σ :=
    { st with calls := st.calls ++ [Call.CreateBranch r.g fromBranchName newBranchName] }
  if fromBranchName = "" ∨ newBranchName = "" then
    (some "the name of the new or originating branch is not defined", st1)
  else
    let newRefPath := branchRefPath ++ newBranchName
    let fromRefPath := branchRefPath ++ fromBranchName
    match H.Reference st1.sys r.g fromRefPath with
    | .error e =>
      (some ("error creating branch, " ++ fromRefPath ++ " not found... " ++ e.Error), st1)
    | .ok fromRef =>
      let newBranchRef : Reference := { Name := newRefPath, Hash := fromRef.Hash }
      match H.SetReference st1.sys r.g newBranchRef with
      | (some e, sys2) =>
        (some ("error saved reference in the storage... " ++ e), { st1 with sys := sys2 })
      | (none, sys2) =>
        match H.Checkout sys2 r.g newBranchRef.Name with
        | (some e, sys3) =>
          (some ("checkout to new branch fail... " ++ e), { st1 with sys := sys3 })
        | (none, sys3) => (none, { st1 with sys := sys3 })

/-- The method `Repository.GetCurrentBranch`. -/
def GetCurrentBranch {σ : Type} (H : Host σ) (r : Repository) (st : St σ) :
    Except String Reference :=
  match H.Head st.sys r.g with
  | .error e => .error ("could not get a head... " ++ e)
  | .ok head => .ok head

/-- The method `Repository.CommitAndPush`. -/
def CommitAndPush {σ : Type} (H : Host σ) (r : Repository) (comment : String) (st : St σ) :
    Option String × St σ :=
  let st1 : St σ := { st with calls := st.calls ++ [Call.CommitAndPush r.g comment] }
  match H.Commit st1.sys r.g comment with
  | (some e, sys2) => (some ("commit fail... " ++ e), { st1 with sys := sys2 })
  | (none, sys2) =>
    match H.Push sys2 r.g r.auth with
    | (some e, sys3) => (some ("could not do push... " ++ e), { st1 with sys := sys3 })
    | (none, sys3) => (none, { st1 with sys := sys3 })

/-- The method `Repository.BranchExist`. -/
def BranchExist {σ : Type} (H : Host σ) (r : Repository) (name : String) (st : St σ) :
    Except String Bool :=
  let pathRef := branchRefPath ++ name
  match H.Reference st.sys r.g pathRef with
  | .error e =>
    if e = GitError.ErrReferenceNotFound then .ok false
    else .error ("could not get the branch reference " ++ name ++ "..." ++ e.Error)
  | .ok _ => .ok true

end repository

/-! ## updater/updater.go -/

/-- The `Updater` struct. -/
structure Updater where
  config : cfg.Config
deriving DecidableEq, Repr

/-- The function `New` of `updater/updater.go`. -/
def New (config : cfg.Config) : Updater := { config := config }

/-- The function `newRepository`. -/
def newRepository {σ : Type} (H : Host σ) (prj : cfg.Project) (config : cfg.Config) (st : St σ) :
    Except String repository.Repository :=
  let projectPath := config.WorkspaceHome ++ "/" ++ prj.Name
  let auth : Option AuthConfig :=
    if config.Repository.Username ≠ "" ∧ config.Repository.Password ≠ "" then
      some { Username := TrimSpace config.Repository.Username,
             Password := TrimSpace config.Repository.Password }
    else none
  repository.New H
    { Auth := auth, RemoteURL := config.Repository.URL, WorkspacePath := projectPath,
      ProjectName := prj.Name } st

/-- The method `Updater.manageRepository`. -/
def manageRepository {σ : Type} (H : Host σ) (u : Updater) (repo : repository.Repository)
    (st : St σ) : Outcome × St σ :=
  let workingBranchName := u.config.WorkingBranch
  match repository.BranchExist H repo workingBranchName st with
  | .error e => (.err e, st)
  | .ok true =>
    match repository.GetCurrentBranch H repo st with
    | .error e => (.err e, st)
    | .ok currentBranch =>
      if currentBranch.Name = workingBranchName then (.nil, st)
      else
        match repository.ChangeToBranch H repo workingBranchName st with
        | (some e, st1) => (.err e, st1)
        | (none, st1) => (.nil, st1)
  | .ok false =>
    let fromBranchName := u.config.CreateFrom
    if TrimSpace fromBranchName = "" then
      (.err "it's not possible create the branch, create_from is not set", st)
    else
      match repository.CreateBranch H repo fromBranchName workingBranchName st with
      | (some e, st1) => (.err e, st1)
      | (none, st1) => (.nil, st1)

/-- One iteration of the loop of `updateVersionsInFile` over the pair `(data, changes)`;
`none` is the panic of an out-of-range slice. -/
def patchStep (newLibs : List (Text × Text)) (acc : Text × Bool) (libName : Text) :
    Option (Text × Bool) :=
  let data := acc.1
  let startCurrentLib := Index data libName
  let exist := decide (startCurrentLib ≥ 0)
  if exist then
    match sliceFrom data startCurrentLib with
    | none => none
    | some rest =>
      let endLine := Index rest [comma]
      match slice data startCurrentLib (startCurrentLib + endLine) with
      | none => none
      | some lineToReplace =>
        let newLine := libName ++ bytes "\": \"" ++ mapGet newLibs libName ++ bytes "\""
        some (Replace1 data lineToReplace newLine, true)
  else some acc

/-- The loop `for libName := range newLibs` of `updateVersionsInFile`, the keys being visited
in the order `order`. -/
def patchLoop (newLibs : List (Text × Text)) (acc : Text × Bool) : List Text →
    Option (Text × Bool)
  | [] => some acc
  | libName :: order =>
    match patchStep newLibs acc libName with
    | none => none
    | some acc1 => patchLoop newLibs acc1 order

/-- The method `Updater.updateVersionsInFile`; `order` is the order in which the run time
visits the keys of the map `Libraries`. -/
def updateVersionsInFile {σ : Type} (H : Host σ) (u : Updater) (order : List Text)
    (projectPath : String) (st : St σ) : Outcome × St σ :=
  let newLibs := u.config.Libraries
  if newLibs.length = 0 then (.err "libraries configuration does not exists", st)
  else
    let packageJsonFilePath := projectPath ++ "/package.json"
    match H.ReadFile st.sys packageJsonFilePath with
    | none => (.err ("error reading package.json file in " ++ projectPath), st)
    | some fileData =>
      match patchLoop newLibs (fileData, false) order with
      | none => (.panic, st)
      | some (data, changes) =>
        if changes then
          (.nil, { sys := (H.WriteFile st.sys packageJsonFilePath data).2,
                   calls := st.calls ++ [Call.WriteFile packageJsonFilePath data] })
        else (.nil, st)

/-- The method `Updater.UpdateProjectDependencies` (its deferred `wg.Done()` is part of
`workerStep`). -/
def UpdateProjectDependencies {σ : Type} (H : Host σ) (u : Updater) (order : List Text)
    (prj : cfg.Project) (st : St σ) : Outcome × St σ :=
  let projectPath := u.config.WorkspaceHome ++ "/" ++ prj.Name
  match newRepository H prj u.config st with
  | .error e => (.err e, st)
  | .ok repo =>
    match manageRepository H u repo st with
    | (.err e, st1) => (.err e, st1)
    | (.panic, st1) => (.panic, st1)
    | (.nil, st1) =>
      match updateVersionsInFile H u order projectPath st1 with
      | (.err e, st2) => (.err e, st2)
      | (.panic, st2) => (.panic, st2)
      | (.nil, st2) =>
        if prj.Push then
          match repository.CommitAndPush H repo "update dependencies" st2 with
          | (some e, st3) => (.err e, st3)
          | (none, st3) => (.nil, st3)
        else (.nil, st2)

/-- The method `Updater.CommitAndPush` (its deferred `wg.Done()` is part of `workerStep`). -/
def CommitAndPush {σ : Type} (H : Host σ) (u : Updater) (prj : cfg.Project) (st : St σ) :
    Outcome × St σ :=
  match newRepository H prj u.config st with
  | .error e => (.err e, st)
  | .ok repo =>
    match repository.BranchExist H repo u.config.WorkingBranch st with
    | .error e => (.err e, st)
    | .ok false => (.err ("working_branch " ++ u.config.WorkingBranch ++ " doesn't exist"), st)
    | .ok true =>
      match repository.ChangeToBranch H repo u.config.WorkingBranch st with
      | (some e, st1) => (.err e, st1)
      | (none, st1) =>
        match repository.CommitAndPush H repo "commit from dep-updater" st1 with
        | (some e, st2) => (.err e, st2)
        | (none, st2) => (.nil, st2)

/-! ## actions.go -/

/-- The type `UpdaterProcess` of `actions.go`: the per-project operation (the `WaitGroup`
argument is handled by `workerStep`). -/
abbrev UpdaterProcess (σ : Type) := cfg.Project → St σ → Outcome × St σ

/-- The local variable `counter` of `executeAction`. -/
structure Counter where
  Ok : Nat
  Fail : Nat
  Disabled : Nat
deriving DecidableEq, Repr

/-- Where a goroutine of `executeAction` stands.
`spawned`: created by the `go` statement, `updaterProcess` not yet called.
`returned failed`: `updaterProcess` has returned (so its deferred `wg.Done()` has run), with an
error iff `failed`; the counter is not yet read.
`loaded failed tmp`: the goroutine has read the counter field it is about to increment and
holds the value `tmp`.
`finished`: it has stored `tmp + 1` in that field. -/
inductive Phase where
  | spawned : Phase
  | returned (failed : Bool) : Phase
  | loaded (failed : Bool) (tmp : Nat) : Phase
  | finished : Phase
deriving DecidableEq, Repr

/-- A goroutine started by `executeAction` for one project. -/
structure Goroutine where
  project : cfg.Project
  phase : Phase
deriving DecidableEq, Repr

/-- The numbers of the final line `done, %d projects. OK: %d, Fail: %d, Disabled: %d`. -/
structure Summary where
  total : Nat
  ok : Nat
  fail : Nat
  disabled : Nat
deriving DecidableEq, Repr

/-- The state of a run of `executeAction`: the program state, the counter, the `WaitGroup`
counter `wg`, the goroutines started so far, the projects the `for` loop has not reached yet,
the summary once it is printed, and whether a goroutine has panicked. -/
structure Exec (σ : Type) where
  st : St σ
  counter : Counter
  wg : Nat
  goroutines : List Goroutine
  rest : List cfg.Project
  summary : Option Summary
  panicked : Bool

/-- A thread of `executeAction`: the calling goroutine, or the `i`-th goroutine it started. -/
inductive Tid where
  | main : Tid
  | worker (i : Nat) : Tid
deriving DecidableEq, Repr

/-- One step of the calling goroutine: one iteration of the `for` loop, or, after the loop,
`wg.Wait()` (enabled only when the `WaitGroup` counter is zero) followed by the summary. -/
def mainStep {σ : Type} (e : Exec σ) : Option (Exec σ) :=
  if e.panicked then none
  else
    match e.summary with
    | some _ => none
    | none =>
      match e.rest with
      | p :: ps =>
        if !p.Enabled then
          some { e with counter := { e.counter with Disabled := e.counter.Disabled + 1 },
                        rest := ps }
        else
          some { e with wg := e.wg + 1,
                        goroutines := e.goroutines ++ [{ project := p, phase := Phase.spawned }],
                        rest := ps }
      | [] =>
        if e.wg = 0 then
          let line : Summary :=
            { total := e.counter.Ok + e.counter.Disabled + e.counter.Fail,
              ok := e.counter.Ok, fail := e.counter.Fail, disabled := e.counter.Disabled }
          some { e with summary := some line }
        else none

/-- One step of the `i`-th started goroutine: the call of `updaterProcess`, then the load and
the store of `counter.Fail += 1` or `counter.Ok += 1`. -/
def workerStep {σ : Type} (updaterProcess : UpdaterProcess σ) (e : Exec σ) (i : Nat) :
    Option (Exec σ) :=
  if e.panicked then none
  else
    match e.goroutines.get? i with
    | none => none
    | some g =>
      match g.phase with
      | .spawned =>
        match updaterProcess g.project e.st with
        | (.panic, st1) => some { e with st := st1, panicked := true }
        | (.err _, st1) =>
          some { e with st := st1, wg := e.wg - 1,
                        goroutines := e.goroutines.set i { g with phase := Phase.returned true } }
        | (.nil, st1) =>
          some { e with st := st1, wg := e.wg - 1,
                        goroutines := e.goroutines.set i { g with phase := Phase.returned false } }
      | .returned failed =>
        let tmp := if failed then e.counter.Fail else e.counter.Ok
        some { e with goroutines := e.goroutines.set i { g with phase := Phase.loaded failed tmp } }
      | .loaded failed tmp =>
        some { e with
          counter := if failed then { e.counter with Fail := tmp + 1 }
                     else { e.counter with Ok := tmp + 1 },
          goroutines := e.goroutines.set i { g with phase := Phase.finished } }
      | .finished => none

/-- One step of the thread `t`; `none` when `t` cannot move. -/
def step {σ : Type} (updaterProcess : UpdaterProcess σ) (e : Exec σ) : Tid → Option (Exec σ)
  | .main => mainStep e
  | .worker i => workerStep updaterProcess e i

/-- The run that follows the schedule `sched`; `none` when the schedule asks a thread to move
that cannot. -/
def run {σ : Type} (updaterProcess : UpdaterProcess σ) (e : Exec σ) : List Tid → Option (Exec σ)
  | [] => some e
  | t :: sched =>
    match step updaterProcess e t with
    | none => none
    | some e1 => run updaterProcess e1 sched

/-- The function `executeAction` under the schedule `sched`: the error of an empty project
list, or the state the schedule leads to. -/
def executeAction {σ : Type} (config : cfg.Config) (updaterProcess : UpdaterProcess σ)
    (st : St σ) (sched : List Tid) : Except String (Option (Exec σ)) :=
  let projectsToUpdate := config.Projects
  if projectsToUpdate.length = 0 then .error "project names to update, not configured"
  else
    .ok (run updaterProcess
      { st := st, counter := { Ok := 0, Fail := 0, Disabled := 0 }, wg := 0, goroutines := [],
        rest := projectsToUpdate, summary := none, panicked := false } sched)

/-- The function `RunUpdaterAction`, the configuration file already read; `order prj` is the
order in which the keys of `Libraries` are visited while `prj` is processed. -/
def RunUpdaterAction {σ : Type} (H : Host σ) (config : cfg.Config)
    (order : cfg.Project → List Text) (st : St σ) (sched : List Tid) :
    Except String (Option (Exec σ)) :=
  let updater := New config
  executeAction config (fun prj => UpdateProjectDependencies H updater (order prj) prj) st sched

/-- The function `CommitAndPushAction`, the configuration file already read. -/
def CommitAndPushAction {σ : Type} (H : Host σ) (config : cfg.Config) (st : St σ)
    (sched : List Tid) : Except String (Option (Exec σ)) :=
  let updater := New config
  executeAction config (CommitAndPush H updater) st sched

/-! ## A concrete host -/

/-- A project directory of the concrete host: its path, the references of its repository, the
full name of the reference `HEAD` points to, the contents of its `package.json` (`none` when
the file cannot be read), whether writing that file fails, the comments of the commits made
and the number of pushes. -/
structure Workspace where
  path : String
  refs : List Reference
  head : String
  manifest : Option Text
  readOnly : Bool
  commits : List String
  pushes : Nat
deriving DecidableEq, Repr

/-- The state of the concrete host: its project directories. -/
abbrev Machine := List Workspace

/-- The project directory at `path`. -/
def Machine.at (m : Machine) (path : String) : Option Workspace :=
  m.find? (fun w => w.path == path)

/-- The project directory whose `package.json` is the file `file`. -/
def Machine.owner (m : Machine) (file : String) : Option Workspace :=
  m.find? (fun w => w.path ++ "/package.json" == file)

/-- Replace the project directory that has the path of `w` by `w`. -/
def Machine.put (m : Machine) (w : Workspace) : Machine :=
  m.map (fun w0 => if w0.path = w.path then w else w0)

/-- The reference named `name` in a project directory. -/
def Workspace.ref (w : Workspace) (name : String) : Option Reference :=
  w.refs.find? (fun r => r.Name == name)

/-- A small concrete host: repositories are reference stores with a symbolic `HEAD`, a checkout
moves `HEAD`, commits and pushes are counted, and `package.json` is the one file per project
directory. -/
def simpleHost : Host Machine where
  PlainOpen m path :=
    match m.at path with
    | some _ => none
    | none => some "repository does not exist"
  Reference m path name :=
    match m.at path with
    | none => .error (GitError.other "repository does not exist")
    | some w =>
      match w.ref name with
      | some r => .ok r
      | none => .error GitError.ErrReferenceNotFound
  Head m path :=
    match m.at path with
    | none => .error "repository does not exist"
    | some w =>
      match w.ref w.head with
      | some r => .ok r
      | none => .error "reference not found"
  SetReference m path ref :=
    match m.at path with
    | none => (some "repository does not exist", m)
    | some w =>
      (none, m.put { w with refs := ref :: w.refs.filter (fun r => r.Name != ref.Name) })
  Checkout m path name :=
    match m.at path with
    | none => (some "repository does not exist", m)
    | some w =>
      match w.ref name with
      | some _ => (none, m.put { w with head := name })
      | none => (some "reference not found", m)
  Commit m path comment :=
    match m.at path with
    | none => (some "repository does not exist", m)
    | some w => (none, m.put { w with commits := w.commits ++ [comment] })
  Push m path _ :=
    match m.at path with
    | none => (some "repository does not exist", m)
    | some w => (none, m.put { w with pushes := w.pushes + 1 })
  ReadFile m file :=
    match m.owner file with
    | none => none
    | some w => w.manifest
  WriteFile m file data :=
    match m.owner file with
    | none => (some "no such file or directory", m)
    | some w =>
      if w.readOnly then (some "permission denied", m)
      else (none, m.put { w with manifest := some data })

/-- What a run of `executeAction` printed as its summary line, if it got that far. -/
def printed {σ : Type} : Except String (Option (Exec σ)) → Option Summary
  | .ok (some e) => e.summary
  | _ => none

/-- The workspace-changing calls made during a run of `executeAction`. -/
def callsOf {σ : Type} : Except String (Option (Exec σ)) → List Call
  | .ok (some e) => e.st.calls
  | _ => []

/-- The host state at the end of a run of `executeAction`. -/
def sysOf {σ : Type} : Except String (Option (Exec σ)) → Option σ
  | .ok (some e) => some e.st.sys
  | _ => none

/-! ## Properties used in the statements -/

/-- Every occurrence in `t` of every name of `names` has a comma at or after its start
position. -/
def CommaAfter (names : List Text) (t : Text) : Prop :=
  ∀ m ∈ names, ∀ k, k ≤ t.length → m <+: t.drop k → comma ∈ t.drop k

/-- The byte of the double quote. -/
def quote : Nat := 34

/-- The replacement fragment `<name>": "<version>"` that `patchStep` builds for `libName`. -/
def fragment (newLibs : List (Text × Text)) (libName : Text) : Text :=
  libName ++ bytes "\": \"" ++ mapGet newLibs libName ++ bytes "\""

/-- The comma-separated fields of a text. -/
def fields : Text → List Text
  | [] => [[]]
  | c :: cs =>
    if c = comma then [] :: fields cs
    else
      match fields cs with
      | [] => [[c]]
      | f :: fs => (c :: f) :: fs

/-- No comma-separated field of `t` contains two different names of `names`. -/
def Apart (names : List Text) (t : Text) : Prop :=
  ∀ f ∈ fields t, ∀ n ∈ names, ∀ m ∈ names, n <:+: f → m <:+: f → n = m

/-- The property `Apart` stated on infixes: no infix of `t` without a comma contains two
different names of `names`. -/
def ApartInfix (names : List Text) (t : Text) : Prop :=
  ∀ f, f <:+: t → comma ∉ f → ∀ n ∈ names, ∀ m ∈ names, n <:+: f → m <:+: f → n = m

/-- Every library name is non-empty, has no comma and no double quote, is not a part of `: `
and is not a part of any target version of the mapping. -/
def PlainNames (libs : List (Text × Text)) : Prop :=
  ∀ n ∈ libs.map Prod.fst,
    n ≠ [] ∧ comma ∉ n ∧ quote ∉ n ∧ ¬ n <:+: bytes ": " ∧ ∀ e ∈ libs, ¬ n <:+: e.2

/-! ## Example data -/

/-- Example: one project `a` to be pushed, working branch `deps` created from `main`, and the
library `react` to be set to `18.2.0`. -/
def reactConfig : cfg.Config :=
  { WorkspaceHome := "/ws",
    Repository := { URL := "", Username := "", Password := "" },
    Projects := [{ Enabled := true, Name := "a", Push := true, Clone := false }],
    WorkingBranch := "deps",
    CreateFrom := "main",
    Libraries := [(bytes "react", bytes "18.2.0")] }

/-- The project `a` of `reactConfig`. -/
def projectA : cfg.Project := { Enabled := true, Name := "a", Push := true, Clone := false }

/-- Example: the directory of project `a`, checked out on `main`, with the branches `main` and
`deps` and a manifest that pins `react` to `17.0.0`. -/
def reactWorkspace : Workspace :=
  { path := "/ws/a",
    refs := [{ Name := "refs/heads/main", Hash := "c0" },
             { Name := "refs/heads/deps", Hash := "c1" }],
    head := "refs/heads/main",
    manifest := some (bytes "  \"react\": \"17.0.0\",\n"),
    readOnly := false,
    commits := [],
    pushes := 0 }

/-- Example: the manifest of `reactWorkspace` after the update. -/
def reactPatched : Text := bytes "  \"react\": \"18.2.0\",\n"

/-- Example: a run that starts with the single directory `w` and no call made. -/
def startAt (w : Workspace) : St Machine := { sys := [w], calls := [] }

/-- Example: the repository wrapper of project `a`. -/
def repoA : repository.Repository := { g := "/ws/a", auth := none, url := "", projectName := "a" }

/-- Example: two enabled projects. -/
def twoProjects : cfg.Config :=
  { reactConfig with
    Projects := [{ Enabled := true, Name := "a", Push := false, Clone := false },
                 { Enabled := true, Name := "b", Push := false, Clone := false }] }

/-- Example: the directories of the projects `a` and `b`, no call made yet. -/
def twoWorkspaces : St Machine :=
  { sys := [reactWorkspace, { reactWorkspace with path := "/ws/b" }], calls := [] }

/-- Example: a per-project operation that always succeeds and changes nothing. -/
def succeed : UpdaterProcess Unit := fun _ st => (Outcome.nil, st)

/-- Example: the two libraries `core` and `@angular/core`. -/
def angularLibs : List (Text × Text) :=
  [(bytes "core", bytes "1"), (bytes "@angular/core", bytes "2")]

/-- Example: a manifest that declares `@angular/core` and `core`. -/
def angularManifest : Text := bytes "\"@angular/core\": \"0\", \"core\": \"0\","

/-- Example: `reactConfig` with an empty library mapping. -/
def noLibraries : cfg.Config := { reactConfig with Libraries := [] }

/-- Example: the directory of project `a` when the branch `deps` does not exist. -/
def withoutDeps : Workspace :=
  { reactWorkspace with refs := [{ Name := "refs/heads/main", Hash := "c0" }] }

/-- Example: `withoutDeps` after `deps` has been created from `main` and checked out. -/
def depsCreated : Workspace :=
  { reactWorkspace with
    refs := [{ Name := "refs/heads/deps", Hash := "c0" },
             { Name := "refs/heads/main", Hash := "c0" }],
    head := "refs/heads/deps" }

/-- Example: the directory of project `a` when it is already checked out on `deps`. -/
def onDeps : Workspace := { reactWorkspace with head := "refs/heads/deps" }

/-- Example: `reactConfig` with a working branch whose name starts with `refs/heads/`. -/
def fooConfig : cfg.Config := { reactConfig with WorkingBranch := "refs/heads/foo" }

/-- Example: a directory with the branches `foo` and `refs/heads/foo`, checked out on `foo`. -/
def fooWorkspace : Workspace :=
  { reactWorkspace with
    refs := [{ Name := "refs/heads/foo", Hash := "c0" },
             { Name := "refs/heads/refs/heads/foo", Hash := "c1" }],
    head := "refs/heads/foo" }

/-- Example: `reactConfig` with the push flag of project `a` set to false. -/
def noPushConfig : cfg.Config :=
  { reactConfig with
    Projects := [{ Enabled := true, Name := "a", Push := false, Clone := false }] }

/-- Example: `reactWorkspace` after the push-only pipeline has run on it. -/
def pushedWorkspace : Workspace :=
  { reactWorkspace with
    head := "refs/heads/deps",
    commits := ["commit from dep-updater"],
    pushes := 1 }

/-- Example: `reactWorkspace` with a manifest that cannot be written. -/
def readOnlyWorkspace : Workspace := { reactWorkspace with readOnly := true }

/-- Example: the two libraries `react` and `vue`. -/
def twoLibs : List (Text × Text) :=
  [(bytes "react", bytes "18.2.0"), (bytes "vue", bytes "3.4.0")]

/-- Example: a manifest that declares `react` and `vue`. -/
def twoManifest : Text := bytes "\"react\": \"17.0.0\", \"vue\": \"2.0.0\","

/-! ## Lemmas on the string functions -/

theorem startsWith_iff (s p : Text) : startsWith s p = true ↔ p <+: s := by
  induction s generalizing p with
  | nil =>
    cases p with
    | nil => simp [startsWith]
    | cons a p => simp [startsWith]
  | cons c cs ih =>
    cases p with
    | nil => simp [startsWith]
    | cons a p =>
      simp only [startsWith, Bool.and_eq_true, beq_iff_eq, List.cons_prefix_cons, ih]
      constructor
      · rintro ⟨h1, h2⟩; exact ⟨h1.symm, h2⟩
      · rintro ⟨h1, h2⟩; exact ⟨h1.symm, h2⟩

theorem Index_ge (s sub : Text) : Index s sub = -1 ∨ 0 ≤ Index s sub := by
  induction s with
  | nil => unfold Index; split <;> simp
  | cons c cs ih =>
    unfold Index
    split
    · simp
    · simp only
      split
      · simp
      · right; omega

/-- A non-negative `Index` is the position of an occurrence. -/
theorem Index_occ (s sub : Text) (k : Nat) (h : Index s sub = k) :
    k ≤ s.length ∧ sub <+: s.drop k := by
  induction s generalizing k with
  | nil =>
    unfold Index at h
    split at h
    · have : k = 0 := by omega
      subst this; simp_all
    · omega
  | cons c cs ih =>
    unfold Index at h
    split at h
    · rename_i hp
      have : k = 0 := by omega
      subst this
      exact ⟨by simp, by simpa using (startsWith_iff _ _).1 hp⟩
    · simp only at h
      split at h
      · omega
      · rename_i hk
        have hk0 : 0 ≤ Index cs sub := by omega
        obtain ⟨j, hj⟩ := Int.eq_ofNat_of_zero_le hk0
        have := ih j hj
        have hkj : k = j + 1 := by omega
        subst hkj
        simpa using this

/-- An occurrence at position `k` bounds `Index` by `k`. -/
theorem Index_le_of_occ (s sub : Text) (k : Nat) (hk : k ≤ s.length) (h : sub <+: s.drop k) :
    0 ≤ Index s sub ∧ Index s sub ≤ k := by
  induction s generalizing k with
  | nil =>
    simp at hk; subst hk
    simp at h
    subst h
    simp [Index]
  | cons c cs ih =>
    unfold Index
    split
    · simp
    · rename_i hp
      cases k with
      | zero =>
        simp at h
        exact absurd ((startsWith_iff _ _).2 h) hp
      | succ k =>
        simp at h hk
        have := ih k hk h
        simp only
        split
        · omega
        · constructor <;> push_cast <;> omega

/-- No occurrence before position `Index`. -/
theorem Index_first (s sub : Text) (k j : Nat) (h : Index s sub = k) (hj : j < k) :
    ¬ sub <+: s.drop j := by
  intro hocc
  have hk := (Index_occ s sub k h).1
  have := (Index_le_of_occ s sub j (by omega) hocc).2
  omega

theorem Index_neg_iff (s sub : Text) : Index s sub < 0 ↔ ¬ sub <:+: s := by
  constructor
  · intro h hin
    obtain ⟨a, b, rfl⟩ := hin
    have := (Index_le_of_occ (a ++ sub ++ b) sub a.length (by simp) (by simp)).1
    omega
  · intro h
    rcases Index_ge s sub with h1 | h1
    · omega
    · exfalso
      obtain ⟨j, hj⟩ := Int.eq_ofNat_of_zero_le h1
      obtain ⟨_, hp⟩ := Index_occ s sub j hj
      exact h (hp.isInfix.trans (List.drop_suffix j s).isInfix)

theorem Index_eq_of_first (s sub : Text) (k : Nat) (hk : k ≤ s.length) (h : sub <+: s.drop k)
    (hfirst : ∀ j, j < k → ¬ sub <+: s.drop j) : Index s sub = k := by
  obtain ⟨h0, h1⟩ := Index_le_of_occ s sub k hk h
  obtain ⟨i, hi⟩ := Int.eq_ofNat_of_zero_le h0
  have hocc := (Index_occ s sub i hi).2
  by_cases hik : i < k
  · exact absurd hocc (hfirst i hik)
  · omega

theorem patchStep_absent (libs : List (Text × Text)) (t : Text) (c : Bool) (n : Text)
    (h : Index t n < 0) : patchStep libs (t, c) n = some (t, c) := by
  have : ¬ (Index t n ≥ 0) := by omega
  simp [patchStep, this]

theorem patchStep_panic (libs : List (Text × Text)) (t : Text) (c : Bool) (n : Text) (k : Nat)
    (hk : Index t n = k) (hc : comma ∉ t.drop k) : patchStep libs (t, c) n = none := by
  have hkl := (Index_occ t n k hk).1
  have he : Index (t.drop k) [comma] = -1 := by
    rcases Index_ge (t.drop k) [comma] with h | h
    · exact h
    · exfalso
      have : ¬ Index (t.drop k) [comma] < 0 := by omega
      rw [Index_neg_iff] at this
      simp only [not_not] at this
      exact hc (this.subset (by simp))
  have h1 : sliceFrom t (k : Int) = some (t.drop k) := by
    simp [sliceFrom, hkl]
  simp only [patchStep, hk, h1, he]
  simp [slice]

theorem patchStep_found (libs : List (Text × Text)) (t : Text) (c : Bool) (n : Text) (k e : Nat)
    (hk : Index t n = k) (he : Index (t.drop k) [comma] = e) :
    patchStep libs (t, c) n =
      some (Replace1 t ((t.drop k).take e)
        (n ++ bytes "\": \"" ++ mapGet libs n ++ bytes "\""), true) := by
  have hkl := (Index_occ t n k hk).1
  have hel := (Index_occ (t.drop k) [comma] e he).1
  simp only [List.length_drop] at hel
  have h1 : sliceFrom t (k : Int) = some (t.drop k) := by
    simp [sliceFrom, hkl]
  have h2 : slice t (k : Int) ((k : Int) + (e : Int)) = some ((t.drop k).take e) := by
    have : (k : Int) + (e : Int) ≤ (t.length : Int) := by omega
    have h3 : ((k : Int) + (e : Int)).toNat - k = e := by omega
    simp [slice, this, h3]
  simp only [patchStep, hk, h1, he, h2]
  simp

theorem Replace1_found (s old new : Text) (j : Nat) (hne : old ≠ new) (hj : Index s old = j) :
    Replace1 s old new = s.take j ++ new ++ s.drop (j + old.length) := by
  simp [Replace1, hne, hj]

theorem Index_comma (y b : Text) (hy : comma ∉ y) :
    Index (y ++ comma :: b) [comma] = y.length := by
  apply Index_eq_of_first
  · simp
  · simp
  · intro j hj hp
    rw [List.drop_append_of_le_length (by omega)] at hp
    have hne : y.drop j ≠ [] := by
      intro h
      have := congrArg List.length h
      simp at this
      omega
    obtain ⟨z, zs, hz⟩ := List.exists_cons_of_ne_nil hne
    rw [hz] at hp
    simp at hp
    have : z ∈ y.drop j := by rw [hz]; simp
    exact hy (hp ▸ List.mem_of_mem_drop this)

theorem patchStep_decomp (libs : List (Text × Text)) (a n x b : Text) (c : Bool)
    (hcn : comma ∉ n) (hcx : comma ∉ x)
    (hfirst : ∀ j, j < a.length → ¬ n <+: (a ++ n ++ x ++ comma :: b).drop j) :
    patchStep libs (a ++ n ++ x ++ comma :: b, c) n =
      some (a ++ (n ++ bytes "\": \"" ++ mapGet libs n ++ bytes "\"") ++ comma :: b, true) := by
  have hk : Index (a ++ n ++ x ++ comma :: b) n = (a.length : Nat) := by
    apply Index_eq_of_first _ _ _ _ _ hfirst
    · simp
    · simp [List.append_assoc]
  have hdrop : (a ++ n ++ x ++ comma :: b).drop a.length = (n ++ x) ++ comma :: b := by
    simp [List.append_assoc]
  have he : Index ((a ++ n ++ x ++ comma :: b).drop a.length) [comma] = ((n ++ x).length : Nat) := by
    rw [hdrop]
    exact Index_comma (n ++ x) b (by simp [hcn, hcx])
  rw [patchStep_found libs _ c n _ _ hk he, hdrop]
  have htake : ((n ++ x) ++ comma :: b).take (n ++ x).length = n ++ x :=
    List.take_left' rfl
  rw [htake]
  by_cases hne : n ++ x = n ++ bytes "\": \"" ++ mapGet libs n ++ bytes "\""
  · simp only [Replace1, hne, if_true]
    rw [← hne]
    simp [List.append_assoc]
  · have hj : Index (a ++ n ++ x ++ comma :: b) (n ++ x) = (a.length : Nat) := by
      apply Index_eq_of_first
      · simp
      · rw [hdrop]; simp
      · intro j hj hp
        exact hfirst j hj ((List.prefix_append n x).trans hp)
    rw [Replace1_found _ _ _ _ hne hj]
    simp [List.append_assoc]

/-! ## Slice safety of the patch loop -/

theorem Replace1_commaAfter (names : List Text) (t new : Text) (k e : Nat)
    (hP : CommaAfter names t) (hke : k + e ≤ t.length) (hc : comma ∈ t.drop (k + e)) :
    CommaAfter names (Replace1 t ((t.drop k).take e) new) := by
  by_cases hne : (t.drop k).take e = new
  · simpa [Replace1, hne] using hP
  · have hlen : ((t.drop k).take e).length = e := by
      simp only [List.length_take, List.length_drop]; omega
    obtain ⟨h0, h1⟩ := Index_le_of_occ t ((t.drop k).take e) k (by omega) (List.take_prefix _ _)
    obtain ⟨j, hj⟩ := Int.eq_ofNat_of_zero_le h0
    have hjk : j ≤ k := by omega
    rw [Replace1_found t _ new j hne hj, hlen]
    have htail : comma ∈ t.drop (j + e) :=
      (List.drop_suffix_drop_left t (by omega : j + e ≤ k + e)).subset hc
    intro m hm q hq hocc
    have hjl : (t.take j).length = j := by simp only [List.length_take]; omega
    by_cases hqp : q ≤ (t.take j ++ new).length
    · rw [List.drop_append_of_le_length hqp]
      exact List.mem_append_right _ htail
    · have hqp2 : (t.take j ++ new).length < q := by omega
      have hd : (t.take j ++ new ++ t.drop (j + e)).drop q
          = t.drop (j + e + (q - (t.take j ++ new).length)) := by
        rw [List.drop_append_eq_append_drop, List.drop_eq_nil_of_le (by omega), List.nil_append,
          List.drop_drop]
      rw [hd] at hocc ⊢
      refine hP m hm _ ?_ hocc
      simp only [List.length_append, List.length_drop] at hq hqp2 ⊢
      omega

theorem patchStep_safe (libs : List (Text × Text)) (names : List Text) (t : Text) (c : Bool)
    (n : Text) (hn : n ∈ names) (hP : CommaAfter names t) :
    ∃ r, patchStep libs (t, c) n = some r ∧ CommaAfter names r.1 := by
  rcases Index_ge t n with h | h
  · exact ⟨(t, c), patchStep_absent libs t c n (by omega), hP⟩
  · obtain ⟨k, hk⟩ := Int.eq_ofNat_of_zero_le h
    obtain ⟨hkl, hocc⟩ := Index_occ t n k hk
    have hcomma : comma ∈ t.drop k := hP n hn k hkl hocc
    have he0 : 0 ≤ Index (t.drop k) [comma] := by
      rcases Index_ge (t.drop k) [comma] with h | h
      · exfalso
        have h2 : Index (t.drop k) [comma] < 0 := by omega
        rw [Index_neg_iff] at h2
        obtain ⟨s1, s2, hs⟩ := List.append_of_mem hcomma
        exact h2 ⟨s1, s2, by simp [hs]⟩
      · exact h
    obtain ⟨e, he⟩ := Int.eq_ofNat_of_zero_le he0
    obtain ⟨hel, heocc⟩ := Index_occ (t.drop k) [comma] e he
    simp only [List.length_drop] at hel
    refine ⟨_, patchStep_found libs t c n k e hk he, ?_⟩
    refine Replace1_commaAfter names t _ k e hP (by omega) ?_
    rw [List.drop_drop] at heocc
    exact heocc.subset (by simp)

theorem patchLoop_safe (libs : List (Text × Text)) (names : List Text) (order : List Text)
    (horder : ∀ n ∈ order, n ∈ names) (t : Text) (c : Bool) (hP : CommaAfter names t) :
    ∃ r, patchLoop libs (t, c) order = some r ∧ CommaAfter names r.1 := by
  induction order generalizing t c with
  | nil => exact ⟨(t, c), rfl, hP⟩
  | cons n order ih =>
    obtain ⟨r, hr, hPr⟩ := patchStep_safe libs names t c n (horder n (by simp)) hP
    obtain ⟨r2, hr2, hP2⟩ := ih (fun m hm => horder m (by simp [hm])) r.1 r.2 hPr
    exact ⟨r2, by simp [patchLoop, hr, hr2], hP2⟩

/-! ## The calls made by the branch reconciler -/

theorem ChangeToBranch_calls {σ : Type} (H : Host σ) (r : repository.Repository)
    (branchName : String) (st : St σ) :
    (repository.ChangeToBranch H r branchName st).2.calls
      = st.calls ++ [Call.ChangeToBranch r.g branchName] := by
  simp only [repository.ChangeToBranch]
  split
  · rfl
  · split <;> rfl

theorem CreateBranch_calls {σ : Type} (H : Host σ) (r : repository.Repository)
    (fromBranchName newBranchName : String) (st : St σ) :
    (repository.CreateBranch H r fromBranchName newBranchName st).2.calls
      = st.calls ++ [Call.CreateBranch r.g fromBranchName newBranchName] := by
  simp only [repository.CreateBranch]
  split
  · rfl
  · split
    · rfl
    · split
      · rfl
      · split <;> rfl

theorem manageRepository_calls {σ : Type} (H : Host σ) (u : Updater)
    (repo : repository.Repository) (st : St σ) :
    (manageRepository H u repo st).1 ≠ Outcome.panic ∧
    ((manageRepository H u repo st).2.calls = st.calls ∨
     (manageRepository H u repo st).2.calls
        = st.calls ++ [Call.ChangeToBranch repo.g u.config.WorkingBranch] ∨
     (manageRepository H u repo st).2.calls
        = st.calls ++ [Call.CreateBranch repo.g u.config.CreateFrom u.config.WorkingBranch]) := by
  have h1 := ChangeToBranch_calls H repo u.config.WorkingBranch st
  have h2 := CreateBranch_calls H repo u.config.CreateFrom u.config.WorkingBranch st
  simp only [manageRepository]
  split
  · simp
  · split
    · simp
    · split
      · simp
      · split
        · rename_i heq; rw [heq] at h1; simp only at h1; simp [h1]
        · rename_i heq; rw [heq] at h1; simp only at h1; simp [h1]
  · split
    · simp
    · split
      · rename_i heq; rw [heq] at h2; simp only at h2; simp [h2]
      · rename_i heq; rw [heq] at h2; simp only at h2; simp [h2]

theorem newRepository_g {σ : Type} (H : Host σ) (prj : cfg.Project) (config : cfg.Config)
    (st : St σ) (repo : repository.Repository) (h : newRepository H prj config st = .ok repo) :
    repo.g = config.WorkspaceHome ++ "/" ++ prj.Name := by
  simp only [newRepository, repository.New] at h
  split at h
  · cases h
  · cases h; rfl

/-! ## The update pipeline with an empty library mapping -/

/-- With an empty library mapping `updateVersionsInFile` returns its first error and changes
nothing. -/
theorem updateVersionsInFile_no_libraries {σ : Type} (H : Host σ) (u : Updater)
    (order : List Text) (projectPath : String) (st : St σ) (h : u.config.Libraries = []) :
    updateVersionsInFile H u order projectPath st
      = (Outcome.err "libraries configuration does not exists", st) := by
  simp [updateVersionsInFile, h]

/-- Claim C2, amended: with an empty library mapping `UpdateProjectDependencies` always returns
an error and makes no manifest write and no commit/push call; when the repository opens and
`manageRepository` succeeds the error is `libraries configuration does not exists`, returned
after the reconciler has run, so by then at most one `ChangeToBranch` or `CreateBranch` call has
been made. -/
theorem UpdateProjectDependencies_no_libraries {σ : Type} (H : Host σ) (u : Updater)
    (order : List Text) (prj : cfg.Project) (st : St σ) (h : u.config.Libraries = []) :
    (∃ msg, (UpdateProjectDependencies H u order prj st).1 = Outcome.err msg) ∧
    (∀ repo st1, newRepository H prj u.config st = .ok repo →
        manageRepository H u repo st = (Outcome.nil, st1) →
        UpdateProjectDependencies H u order prj st
          = (Outcome.err "libraries configuration does not exists", st1)) ∧
    ((UpdateProjectDependencies H u order prj st).2.calls = st.calls ∨
     (UpdateProjectDependencies H u order prj st).2.calls
        = st.calls ++ [Call.ChangeToBranch (u.config.WorkspaceHome ++ "/" ++ prj.Name)
            u.config.WorkingBranch] ∨
     (UpdateProjectDependencies H u order prj st).2.calls
        = st.calls ++ [Call.CreateBranch (u.config.WorkspaceHome ++ "/" ++ prj.Name)
            u.config.CreateFrom u.config.WorkingBranch]) := by
  cases hopen : newRepository H prj u.config st with
  | error e =>
    simp [UpdateProjectDependencies, hopen]
  | ok repo =>
    have hg := newRepository_g H prj u.config st repo hopen
    have hm := manageRepository_calls H u repo st
    rw [hg] at hm
    rcases hres : manageRepository H u repo st with ⟨o, st1⟩
    rw [hres] at hm
    have hu := updateVersionsInFile_no_libraries H u order
      (u.config.WorkspaceHome ++ "/" ++ prj.Name) st1 h
    cases o with
    | nil =>
      simp only [UpdateProjectDependencies, hopen, hres, hu]
      refine ⟨⟨_, rfl⟩, ?_, hm.2⟩
      intro repo1 st2 h1 h2
      cases h1
      rw [hres] at h2
      cases h2
      rfl
    | err e =>
      simp only [UpdateProjectDependencies, hopen, hres]
      refine ⟨⟨_, rfl⟩, ?_, hm.2⟩
      intro repo1 st2 h1 h2
      cases h1
      rw [hres] at h2
      cases h2
    | panic => exact absurd rfl hm.1

/-- Claim C2, amended, at a concrete input: with no library configured and project `a` on
`main`, the run checks out `deps` and makes no other call. -/
theorem UpdateProjectDependencies_no_libraries_witness :
    (UpdateProjectDependencies simpleHost (New noLibraries) [] projectA
        (startAt reactWorkspace)).2.calls = [Call.ChangeToBranch "/ws/a" "deps"] := by
  have h := (UpdateProjectDependencies_no_libraries simpleHost (New noLibraries) [] projectA
    (startAt reactWorkspace) rfl).2.2
  rcases h with h | h | h
  · exact absurd h (by decide)
  · exact h
  · exact absurd h (by decide)

/-- Claim C2 as stated fails: with an empty library mapping and the enabled project `a` whose
working branch `deps` does not exist yet, `UpdateProjectDependencies` returns the library error
only after `CreateBranch` has created `deps` from `main` and checked it out. -/
theorem UpdateProjectDependencies_no_libraries_creates_branch :
    noLibraries.Libraries = [] ∧ projectA.Enabled = true ∧
    (UpdateProjectDependencies simpleHost (New noLibraries) [] projectA (startAt withoutDeps)).1
      = Outcome.err "libraries configuration does not exists" ∧
    (UpdateProjectDependencies simpleHost (New noLibraries) [] projectA
        (startAt withoutDeps)).2.calls = [Call.CreateBranch "/ws/a" "main" "deps"] ∧
    (UpdateProjectDependencies simpleHost (New noLibraries) [] projectA
        (startAt withoutDeps)).2.sys = [depsCreated] := by
  decide

/-! ## The manifest patcher with one library -/

/-- Claim C1: with the single-entry library mapping `n ↦ v`, `n` without a comma, and a
manifest `t`: (a) if `n` does not occur in `t`, `updateVersionsInFile` returns `nil` and leaves
the whole state as it was (no write); (b) if `t = a ++ n ++ x ++ "," ++ b` where `n` occurs at no
position before `a.length` and `x` has no comma, then exactly one `WriteFile` is made, of the
text `a ++ n ++ "\": \"" ++ v ++ "\"" ++ "," ++ b`. -/
theorem updateVersionsInFile_single_library {σ : Type} (H : Host σ) (u : Updater)
    (projectPath : String) (st : St σ) (n v t : Text)
    (hlibs : u.config.Libraries = [(n, v)]) (hcn : comma ∉ n)
    (hread : H.ReadFile st.sys (projectPath ++ "/package.json") = some t) :
    (¬ n <:+: t → updateVersionsInFile H u [n] projectPath st = (Outcome.nil, st)) ∧
    (∀ a x b : Text, t = a ++ n ++ x ++ comma :: b →
      (∀ j, j < a.length → ¬ n <+: t.drop j) → comma ∉ x →
      updateVersionsInFile H u [n] projectPath st =
        (Outcome.nil,
          { sys := (H.WriteFile st.sys (projectPath ++ "/package.json")
                      (a ++ (n ++ bytes "\": \"" ++ v ++ bytes "\"") ++ comma :: b)).2,
            calls := st.calls ++ [Call.WriteFile (projectPath ++ "/package.json")
                      (a ++ (n ++ bytes "\": \"" ++ v ++ bytes "\"") ++ comma :: b)] })) := by
  have hget : mapGet [(n, v)] n = v := by simp [mapGet]
  constructor
  · intro habs
    have h1 := patchStep_absent [(n, v)] t false n ((Index_neg_iff t n).2 habs)
    simp [updateVersionsInFile, hlibs, hread, patchLoop, h1]
  · intro a x b ht hfirst hcx
    subst ht
    have h1 := patchStep_decomp [(n, v)] a n x b false hcn hcx hfirst
    rw [hget] at h1
    simp only [updateVersionsInFile, hlibs, hread, patchLoop, h1, List.length_singleton,
      one_ne_zero, if_false, if_true]

/-- Claim C1 at the input of the specification: the manifest line `"react": "17.0.0",` and the
mapping `react ↦ 18.2.0` give one write, of the line `"react": "18.2.0",`. -/
theorem updateVersionsInFile_single_library_react :
    updateVersionsInFile simpleHost (New reactConfig) [bytes "react"] "/ws/a"
        (startAt reactWorkspace) =
      (Outcome.nil,
        { sys := [{ reactWorkspace with manifest := some reactPatched }],
          calls := [Call.WriteFile "/ws/a/package.json" reactPatched] }) :=
  (updateVersionsInFile_single_library simpleHost (New reactConfig) "/ws/a"
    (startAt reactWorkspace) (bytes "react") (bytes "18.2.0")
    (bytes "  \"react\": \"17.0.0\",\n") (by decide) (by decide) (by decide)).2
    (bytes "  \"") (bytes "\": \"17.0.0\"") (bytes "\n") (by decide) (by decide) (by decide)

/-! ## The branch reconciler -/

/-- The full name of a branch is never the short name itself. -/
theorem branchRefPath_append_ne (name : String) : repository.branchRefPath ++ name ≠ name := by
  intro h
  have h1 := congrArg String.length h
  rw [String.length_append] at h1
  have h2 : repository.branchRefPath.length = 11 := by decide
  omega

/-- In the situation of claim C3, on every host: when the working branch exists and the
reference returned by `GetCurrentBranch` has the full name `refs/heads/W`, `manageRepository`
calls `ChangeToBranch W`. -/
theorem manageRepository_full_name_checks_out {σ : Type} (H : Host σ) (u : Updater)
    (repo : repository.Repository) (st : St σ) (ref : Reference)
    (hexist : repository.BranchExist H repo u.config.WorkingBranch st = .ok true)
    (hcur : repository.GetCurrentBranch H repo st = .ok ref)
    (hname : ref.Name = repository.branchRefPath ++ u.config.WorkingBranch) :
    (manageRepository H u repo st).2.calls
      = st.calls ++ [Call.ChangeToBranch repo.g u.config.WorkingBranch] := by
  have hne : ref.Name ≠ u.config.WorkingBranch := by
    rw [hname]; exact branchRefPath_append_ne _
  have h1 := ChangeToBranch_calls H repo u.config.WorkingBranch st
  simp only [manageRepository, hexist, hcur, hne, if_false]
  split
  · rename_i heq; rw [heq] at h1; exact h1
  · rename_i heq; rw [heq] at h1; exact h1

/-- On every host: when `manageRepository` returns through its branch `project is in the
correct branch`, the name of the current reference is the short name `W`, hence not
`refs/heads/W`. -/
theorem manageRepository_early_return_name {σ : Type} (H : Host σ) (u : Updater)
    (repo : repository.Repository) (st : St σ) (ref : Reference)
    (hexist : repository.BranchExist H repo u.config.WorkingBranch st = .ok true)
    (hcur : repository.GetCurrentBranch H repo st = .ok ref)
    (hcalls : (manageRepository H u repo st).2.calls = st.calls) :
    ref.Name = u.config.WorkingBranch ∧
    ref.Name ≠ repository.branchRefPath ++ u.config.WorkingBranch := by
  by_cases hname : ref.Name = u.config.WorkingBranch
  · exact ⟨hname, by rw [hname]; exact fun h => branchRefPath_append_ne _ h.symm⟩
  · exfalso
    have h1 := ChangeToBranch_calls H repo u.config.WorkingBranch st
    simp only [manageRepository, hexist, hcur, hname, if_false] at hcalls
    split at hcalls
    · rename_i heq; rw [heq] at h1; simp only at h1 hcalls; rw [h1] at hcalls; simp at hcalls
    · rename_i heq; rw [heq] at h1; simp only at h1 hcalls; rw [h1] at hcalls; simp at hcalls

/-- Claim C3 fails on the code: the working branch `deps` exists and is the current branch
(`GetCurrentBranch` returns the reference `refs/heads/deps`), and `manageRepository` returns
`nil` after one `ChangeToBranch` call. -/
theorem manageRepository_on_working_branch_checks_out :
    repository.BranchExist simpleHost repoA "deps" (startAt onDeps) = .ok true ∧
    repository.GetCurrentBranch simpleHost repoA (startAt onDeps)
      = .ok { Name := "refs/heads/deps", Hash := "c1" } ∧
    (manageRepository simpleHost (New reactConfig) repoA (startAt onDeps)).1 = Outcome.nil ∧
    (manageRepository simpleHost (New reactConfig) repoA (startAt onDeps)).2.calls
      = [Call.ChangeToBranch "/ws/a" "deps"] := by
  refine ⟨rfl, rfl, ?_, ?_⟩ <;> decide

/-- Claim C4 fails on the code: with the working branch `refs/heads/foo` (reference
`refs/heads/refs/heads/foo`, which exists) and `HEAD` on the branch `foo`, `manageRepository`
returns `nil` without any call, and the current reference is `refs/heads/foo`, which is not
the reference of the working branch. -/
theorem manageRepository_early_return_wrong_head :
    repository.BranchExist simpleHost repoA fooConfig.WorkingBranch (startAt fooWorkspace)
      = .ok true ∧
    (manageRepository simpleHost (New fooConfig) repoA (startAt fooWorkspace)).1 = Outcome.nil ∧
    (manageRepository simpleHost (New fooConfig) repoA (startAt fooWorkspace)).2.calls = [] ∧
    repository.GetCurrentBranch simpleHost repoA
        (manageRepository simpleHost (New fooConfig) repoA (startAt fooWorkspace)).2
      = .ok { Name := "refs/heads/foo", Hash := "c0" } ∧
    "refs/heads/foo" ≠ repository.branchRefPath ++ fooConfig.WorkingBranch := by
  refine ⟨rfl, ?_, ?_, rfl, ?_⟩ <;> decide

/-! ## The fan-out orchestrator -/

/-- Claim C5 fails on the code: the push command on two enabled projects whose pipelines both
succeed.  Under the first schedule both goroutines load `counter.Ok` before either stores it,
and the summary reports one project; under the second the summary is printed after both
`wg.Done()` and before any increment, and reports none; under the third, where each goroutine
runs to its end before the next starts, it reports two.  The first two runs are repeated with
an operation that does nothing and succeeds. -/
theorem executeAction_counts_lost :
    printed (CommitAndPushAction simpleHost twoProjects twoWorkspaces
      [.main, .main, .worker 0, .worker 1, .worker 0, .worker 1, .worker 0, .worker 1, .main])
      = some { total := 1, ok := 1, fail := 0, disabled := 0 } ∧
    printed (CommitAndPushAction simpleHost twoProjects twoWorkspaces
      [.main, .main, .worker 0, .worker 1, .main])
      = some { total := 0, ok := 0, fail := 0, disabled := 0 } ∧
    printed (CommitAndPushAction simpleHost twoProjects twoWorkspaces
      [.main, .main, .worker 0, .worker 0, .worker 0, .worker 1, .worker 1, .worker 1, .main])
      = some { total := 2, ok := 2, fail := 0, disabled := 0 } ∧
    printed (executeAction twoProjects succeed { sys := (), calls := [] }
      [.main, .main, .worker 0, .worker 1, .worker 0, .worker 1, .worker 0, .worker 1, .main])
      = some { total := 1, ok := 1, fail := 0, disabled := 0 } ∧
    printed (executeAction twoProjects succeed { sys := (), calls := [] }
      [.main, .main, .worker 0, .worker 1, .main])
      = some { total := 0, ok := 0, fail := 0, disabled := 0 } := by
  decide

/-- Claim C6 fails on the code: project `a` is enabled with `push` false, and the push command
checks out `deps`, commits and pushes in its directory. -/
theorem CommitAndPushAction_ignores_push_flag :
    noPushConfig.Projects = [{ Enabled := true, Name := "a", Push := false, Clone := false }] ∧
    callsOf (CommitAndPushAction simpleHost noPushConfig (startAt reactWorkspace)
        [.main, .worker 0, .worker 0, .worker 0, .main])
      = [Call.ChangeToBranch "/ws/a" "deps",
         Call.CommitAndPush "/ws/a" "commit from dep-updater"] ∧
    sysOf (CommitAndPushAction simpleHost noPushConfig (startAt reactWorkspace)
        [.main, .worker 0, .worker 0, .worker 0, .main]) = some [pushedWorkspace] ∧
    printed (CommitAndPushAction simpleHost noPushConfig (startAt reactWorkspace)
        [.main, .worker 0, .worker 0, .worker 0, .main])
      = some { total := 1, ok := 1, fail := 0, disabled := 0 } := by
  decide

/-! ## The project worker -/

/-- On every host: once the manifest has been read, `updateVersionsInFile` never returns an
error, whatever `WriteFile` returns. -/
theorem updateVersionsInFile_never_write_error {σ : Type} (H : Host σ) (u : Updater)
    (order : List Text) (projectPath : String) (st : St σ) (t : Text)
    (hlibs : u.config.Libraries ≠ [])
    (hread : H.ReadFile st.sys (projectPath ++ "/package.json") = some t) (msg : String) :
    (updateVersionsInFile H u order projectPath st).1 ≠ Outcome.err msg := by
  have hlen : u.config.Libraries.length ≠ 0 := fun h => hlibs (List.length_eq_zero.1 h)
  simp only [updateVersionsInFile, hlen, if_false, hread]
  split
  · simp
  · split <;> simp

/-- Claim C7 fails on the code: the manifest of project `a` contains `react` and cannot be
written (`WriteFile` returns an error), yet `updateVersionsInFile` and
`UpdateProjectDependencies` return `nil`, and the commit and push are made. -/
theorem UpdateProjectDependencies_write_error_ignored :
    simpleHost.WriteFile [{ readOnlyWorkspace with head := "refs/heads/deps" }]
        "/ws/a/package.json" reactPatched
      = (some "permission denied", [{ readOnlyWorkspace with head := "refs/heads/deps" }]) ∧
    (updateVersionsInFile simpleHost (New reactConfig) [bytes "react"] "/ws/a"
        (startAt { readOnlyWorkspace with head := "refs/heads/deps" })).1 = Outcome.nil ∧
    (UpdateProjectDependencies simpleHost (New reactConfig) [bytes "react"] projectA
        (startAt readOnlyWorkspace)).1 = Outcome.nil ∧
    (UpdateProjectDependencies simpleHost (New reactConfig) [bytes "react"] projectA
        (startAt readOnlyWorkspace)).2.calls
      = [Call.ChangeToBranch "/ws/a" "deps", Call.WriteFile "/ws/a/package.json" reactPatched,
         Call.CommitAndPush "/ws/a" "update dependencies"] := by
  refine ⟨rfl, ?_, ?_, ?_⟩ <;> decide

/-- Claim C8: when the repository of the project opens and `BranchExist` returns false without
error for the working branch, the push-only pipeline returns the error
`working_branch W doesn't exist` and leaves the state as it was: no call is made and the host
state is unchanged. -/
theorem CommitAndPush_branch_absent {σ : Type} (H : Host σ) (u : Updater) (prj : cfg.Project)
    (st : St σ) (repo : repository.Repository)
    (hopen : newRepository H prj u.config st = .ok repo)
    (habsent : repository.BranchExist H repo u.config.WorkingBranch st = .ok false) :
    CommitAndPush H u prj st
      = (Outcome.err ("working_branch " ++ u.config.WorkingBranch ++ " doesn't exist"), st) := by
  simp [CommitAndPush, hopen, habsent]

/-- Claim C8 at a concrete input: project `a` without the branch `deps`. -/
theorem CommitAndPush_branch_absent_witness :
    (CommitAndPush simpleHost (New reactConfig) projectA (startAt withoutDeps)).1
      = Outcome.err "working_branch deps doesn't exist" := by
  rw [CommitAndPush_branch_absent simpleHost (New reactConfig) projectA (startAt withoutDeps)
    repoA rfl rfl]
  decide

/-! ## Slice safety, for every order -/

/-- Claim C9: if every occurrence in the manifest `t` of every library name has a comma at or
after its start, then for every order of the keys the patch loop ends without panic (no
out-of-range slice) in a text that again satisfies the precondition, so that
`updateVersionsInFile` does not panic on such a manifest; and each single step, from any text
that satisfies the precondition, does not panic and preserves it. -/
theorem patchLoop_slice_safe (libs : List (Text × Text)) (order : List Text) (t : Text)
    (c : Bool) (horder : order.Perm (libs.map Prod.fst))
    (hP : CommaAfter (libs.map Prod.fst) t) :
    (∃ r, patchLoop libs (t, c) order = some r ∧ CommaAfter (libs.map Prod.fst) r.1) ∧
    (∀ n ∈ libs.map Prod.fst, ∀ (t1 : Text) (c1 : Bool), CommaAfter (libs.map Prod.fst) t1 →
      ∃ r, patchStep libs (t1, c1) n = some r ∧ CommaAfter (libs.map Prod.fst) r.1) ∧
    (∀ {σ : Type} (H : Host σ) (u : Updater) (projectPath : String) (st : St σ),
      u.config.Libraries = libs → H.ReadFile st.sys (projectPath ++ "/package.json") = some t →
      (updateVersionsInFile H u order projectPath st).1 ≠ Outcome.panic) := by
  refine ⟨patchLoop_safe libs _ order (fun _ hn => horder.subset hn) t c hP,
    fun n hn t1 c1 h1 => patchStep_safe libs _ t1 c1 n hn h1, ?_⟩
  intro σ H u projectPath st hlibs hread
  obtain ⟨r, hr, _⟩ := patchLoop_safe libs _ order (fun _ hn => horder.subset hn) t false hP
  simp only [updateVersionsInFile, hlibs, hread, hr]
  split
  · simp
  · split <;> simp

/-- Claim C9 at a concrete input: the manifest line `"react": "17.0.0",`. -/
theorem patchLoop_slice_safe_witness :
    ∃ r, patchLoop reactConfig.Libraries (bytes "  \"react\": \"17.0.0\",\n", false)
      [bytes "react"] = some r :=
  have h := (patchLoop_slice_safe reactConfig.Libraries [bytes "react"]
    (bytes "  \"react\": \"17.0.0\",\n") false (by decide) (by unfold CommaAfter; decide)).1
  h.imp fun _ hr => hr.1


/-! ## Order of processing -/

/-- A list without `s` that starts `u ++ s :: w` starts `u`. -/
theorem prefix_of_not_mem_sep {s : Nat} {m u w : Text} (hs : s ∉ m) (h : m <+: u ++ s :: w) :
    m <+: u := by
  rcases List.prefix_or_prefix_of_prefix h (List.prefix_append u (s :: w)) with h1 | h1
  · exact h1
  · obtain ⟨r, rfl⟩ := h1
    rw [List.prefix_append_right_inj] at h
    cases r with
    | nil => simp
    | cons x r =>
      rw [List.cons_prefix_cons] at h
      exact absurd (by simp [h.1]) hs

/-- An infix of `u ++ s :: w` lies in `u`, or in `w`, or crosses the separator `s`. -/
theorem infix_sep_cases {s : Nat} {f u w : Text} (h : f <:+: u ++ s :: w) :
    f <:+: u ∨ f <:+: w ∨ ∃ f1 f2, f = f1 ++ s :: f2 ∧ f1 <:+ u ∧ f2 <+: w := by
  obtain ⟨p, q, hpq⟩ := h
  rcases List.append_eq_append_iff.1 hpq with ⟨z, hz1, hz2⟩ | ⟨z, hz1, hz2⟩
  · -- u = p ++ f ++ z
    exact Or.inl ⟨p, z, hz1.symm⟩
  · -- p ++ f = u ++ z, s :: w = z ++ q
    rcases List.append_eq_append_iff.1 hz1 with ⟨y, hy1, hy2⟩ | ⟨y, hy1, hy2⟩
    · -- u = p ++ y, f = y ++ z
      cases z with
      | nil => exact Or.inl ⟨p, [], by simp [hy1, hy2]⟩
      | cons c z =>
        simp only [List.cons_append, List.cons.injEq] at hz2
        obtain ⟨rfl, hw⟩ := hz2
        exact Or.inr (Or.inr ⟨y, z, hy2, ⟨p, hy1.symm⟩, ⟨q, hw.symm⟩⟩)
    · -- p = u ++ y, z = y ++ f
      subst hy2
      cases y with
      | nil =>
        cases f with
        | nil => exact Or.inl ⟨[], u, by simp⟩
        | cons c f =>
          simp only [List.nil_append, List.cons_append, List.cons.injEq] at hz2
          obtain ⟨rfl, hw⟩ := hz2
          exact Or.inr (Or.inr ⟨[], f, rfl, List.nil_suffix, ⟨q, hw.symm⟩⟩)
      | cons c y =>
        simp only [List.cons_append, List.cons.injEq, List.append_assoc] at hz2
        exact Or.inr (Or.inl ⟨y, q, by simp [hz2.2]⟩)

/-- An infix of `u ++ s :: w` without `s` lies in `u` or in `w`. -/
theorem infix_sep {s : Nat} {m u w : Text} (hs : s ∉ m) (h : m <:+: u ++ s :: w) :
    m <:+: u ∨ m <:+: w := by
  rcases infix_sep_cases h with h1 | h1 | ⟨f1, f2, hf, _, _⟩
  · exact Or.inl h1
  · exact Or.inr h1
  · exact absurd (by simp [hf]) hs

/-- If `n` is not an infix of `a ++ n.dropLast`, it occurs at no position before `a.length` in
a text that starts with `a ++ n`. -/
theorem first_positions (a n r : Text) (hfirst : ¬ n <:+: a ++ n.dropLast) :
    ∀ j, j < a.length → ¬ n <+: (a ++ n ++ r).drop j := by
  intro j hj hp
  apply hfirst
  have hd : (a ++ n ++ r).drop j = a.drop j ++ n ++ r := by
    rw [List.append_assoc, List.drop_append_of_le_length (by omega), List.append_assoc]
  rw [hd] at hp
  have h2 : a.drop j ++ n.dropLast <+: a.drop j ++ n ++ r := by
    rw [List.append_assoc, List.prefix_append_right_inj]
    exact (List.dropLast_prefix n).trans (List.prefix_append n r)
  have hlen : n.length ≤ (a.drop j ++ n.dropLast).length := by
    simp only [List.length_append, List.length_drop, List.length_dropLast]
    omega
  have h3 := List.prefix_of_prefix_length_le hp h2 hlen
  have h4 : a.drop j ++ n.dropLast <:+ a ++ n.dropLast := by
    refine ⟨a.take j, ?_⟩
    rw [← List.append_assoc, List.take_append_drop]
  exact h3.isInfix.trans h4.isInfix

/-- A non-empty infix has a first occurrence. -/
theorem exists_first (n t : Text) (hn : n ≠ []) (h : n <:+: t) :
    ∃ a r, t = a ++ n ++ r ∧ ¬ n <:+: a ++ n.dropLast := by
  have h0 : ¬ Index t n < 0 := by rw [Index_neg_iff]; exact not_not.2 h
  obtain ⟨k, hk⟩ := Int.eq_ofNat_of_zero_le (by omega : 0 ≤ Index t n)
  obtain ⟨hkl, ⟨r, hr⟩⟩ := Index_occ t n k hk
  refine ⟨t.take k, r, ?_, ?_⟩
  · rw [List.append_assoc, hr, List.take_append_drop]
  · rintro ⟨p, q, hpq⟩
    have hlen := congrArg List.length hpq
    have hnl : 0 < n.length := List.length_pos.2 hn
    simp only [List.length_append, List.length_take, List.length_dropLast] at hlen
    have hp : p.length < k := by omega
    have ht : t = p ++ n ++ (q ++ n.drop (n.length - 1) ++ r) := by
      have h1 : n = n.dropLast ++ n.drop (n.length - 1) := by
        rw [List.dropLast_eq_take, List.take_append_drop]
      have h2 : t = t.take k ++ (n ++ r) := by rw [hr, List.take_append_drop]
      calc t = t.take k ++ (n ++ r) := h2
        _ = t.take k ++ (n.dropLast ++ n.drop (n.length - 1) ++ r) := by rw [← h1]
        _ = (t.take k ++ n.dropLast) ++ (n.drop (n.length - 1) ++ r) := by
          simp only [List.append_assoc]
        _ = (p ++ n ++ q) ++ (n.drop (n.length - 1) ++ r) := by rw [hpq]
        _ = p ++ n ++ (q ++ n.drop (n.length - 1) ++ r) := by simp only [List.append_assoc]
    apply Index_first t n k p.length hk hp
    rw [ht, List.append_assoc, List.drop_left]
    exact List.prefix_append _ _

theorem patchStep_of_absent (libs : List (Text × Text)) (t : Text) (c : Bool)
    (n : Text) (h : ¬ n <:+: t) : patchStep libs (t, c) n = some (t, c) :=
  patchStep_absent libs t c n ((Index_neg_iff t n).2 h)

theorem patchStep_none (libs : List (Text × Text)) (a n r : Text) (c : Bool)
    (hfirst : ¬ n <:+: a ++ n.dropLast) (hcn : comma ∉ n) (hcr : comma ∉ r) :
    patchStep libs (a ++ n ++ r, c) n = none := by
  have hk : Index (a ++ n ++ r) n = (a.length : Nat) := by
    apply Index_eq_of_first _ _ _ _ _ (first_positions a n r hfirst)
    · simp
    · simp [List.append_assoc]
  apply patchStep_panic libs _ c n _ hk
  simp [List.append_assoc, hcn, hcr]

theorem patchStep_some (libs : List (Text × Text)) (a n x b : Text) (c : Bool)
    (hfirst : ¬ n <:+: a ++ n.dropLast) (hcn : comma ∉ n) (hcx : comma ∉ x) :
    patchStep libs (a ++ n ++ x ++ comma :: b, c) n
      = some (a ++ fragment libs n ++ comma :: b, true) := by
  have h := first_positions a n (x ++ comma :: b) hfirst
  rw [← List.append_assoc] at h
  exact patchStep_decomp libs a n x b c hcn hcx h

theorem mapGet_mem_or (libs : List (Text × Text)) (k : Text) :
    mapGet libs k = [] ∨ ∃ e ∈ libs, mapGet libs k = e.2 := by
  induction libs with
  | nil => exact Or.inl rfl
  | cons e rest ih =>
    obtain ⟨k1, v1⟩ := e
    simp only [mapGet]
    split
    · exact Or.inr ⟨(k1, v1), by simp, rfl⟩
    · rcases ih with h | ⟨e, he, h⟩
      · exact Or.inl h
      · exact Or.inr ⟨e, by simp [he], h⟩

theorem fragment_eq (libs : List (Text × Text)) (n : Text) :
    fragment libs n = n ++ quote :: (bytes ": " ++ quote :: (mapGet libs n ++ [quote])) := by
  have h1 : bytes "\": \"" = quote :: (bytes ": " ++ [quote]) := by decide
  have h2 : bytes "\"" = [quote] := by decide
  simp [fragment, h1, h2]

theorem not_infix_tail (libs : List (Text × Text)) (hplain : PlainNames libs) (m n : Text)
    (hm : m ∈ libs.map Prod.fst) :
    ¬ m <:+: bytes ": " ++ quote :: (mapGet libs n ++ [quote]) := by
  obtain ⟨hne, _, hq, hcs, hv⟩ := hplain m hm
  intro h
  rcases infix_sep hq h with h1 | h1
  · exact hcs h1
  · rcases infix_sep hq h1 with h2 | h2
    · rcases mapGet_mem_or libs n with h3 | ⟨e, he, h3⟩
      · rw [h3] at h2; exact hne (List.infix_nil.1 h2)
      · rw [h3] at h2; exact hv e he h2
    · exact hne (List.infix_nil.1 h2)

theorem infix_fragment (libs : List (Text × Text)) (hplain : PlainNames libs) (m a n : Text)
    (hm : m ∈ libs.map Prod.fst) (h : m <:+: a ++ fragment libs n) : m <:+: a ++ n := by
  rw [fragment_eq, ← List.append_assoc] at h
  rcases infix_sep (hplain m hm).2.2.1 h with h1 | h1
  · exact h1
  · exact absurd h1 (not_infix_tail libs hplain m n hm)

theorem apart_step (libs : List (Text × Text)) (hplain : PlainNames libs) (a n x b : Text)
    (hA : ApartInfix (libs.map Prod.fst) (a ++ n ++ x ++ comma :: b)) :
    ApartInfix (libs.map Prod.fst) (a ++ fragment libs n ++ comma :: b) := by
  intro f hf hcf m1 hm1 m2 hm2 h1 h2
  rcases infix_sep hcf hf with hf1 | hf1
  · rw [fragment_eq, ← List.append_assoc] at hf1
    rcases infix_sep_cases hf1 with g | g | ⟨f1, f2, hfe, hs, hp⟩
    · exact hA f (g.trans ⟨[], x ++ comma :: b, by simp⟩) hcf m1 hm1 m2 hm2 h1 h2
    · exact absurd (h1.trans g) (not_infix_tail libs hplain m1 n hm1)
    · subst hfe
      have k1 : m1 <:+: f1 := (infix_sep (hplain m1 hm1).2.2.1 h1).resolve_right
        (fun h => not_infix_tail libs hplain m1 n hm1 (h.trans hp.isInfix))
      have k2 : m2 <:+: f1 := (infix_sep (hplain m2 hm2).2.2.1 h2).resolve_right
        (fun h => not_infix_tail libs hplain m2 n hm2 (h.trans hp.isInfix))
      have hc1 : comma ∉ f1 := fun h => hcf (by simp [h])
      exact hA f1 (hs.isInfix.trans ⟨[], x ++ comma :: b, by simp⟩) hc1 m1 hm1 m2 hm2 k1 k2
  · exact hA f (hf1.trans ⟨a ++ n ++ x ++ [comma], [], by simp⟩) hcf m1 hm1 m2 hm2 h1 h2

/-- Commutation when the first name does not occur. -/
theorem comm_absent (libs : List (Text × Text)) (hplain : PlainNames libs) (t : Text) (c : Bool)
    (n m : Text) (hn : n ∈ libs.map Prod.fst) (hm : m ∈ libs.map Prod.fst)
    (habs : ¬ n <:+: t) :
    (patchStep libs (t, c) n).bind (fun r => patchStep libs r m)
      = (patchStep libs (t, c) m).bind (fun r => patchStep libs r n) := by
  obtain ⟨_, hcn, _, _, _⟩ := hplain n hn
  obtain ⟨hme, hcm, _, _, _⟩ := hplain m hm
  rw [patchStep_of_absent libs t c n habs, Option.some_bind]
  by_cases hmt : m <:+: t
  · obtain ⟨a, r, rfl, hfirst⟩ := exists_first m t hme hmt
    by_cases hc : comma ∈ r
    · obtain ⟨x, b, rfl, hcx⟩ := List.eq_append_cons_of_mem hc
      have hs := patchStep_some libs a m x b c hfirst hcm hcx
      simp only [← List.append_assoc] at hs habs ⊢
      rw [hs, Option.some_bind]
      symm
      apply patchStep_of_absent
      intro h
      rcases infix_sep hcn h with h1 | h1
      · exact habs ((infix_fragment libs hplain n a m hn h1).trans
          ⟨[], x ++ comma :: b, by simp⟩)
      · exact habs (h1.trans ⟨a ++ m ++ x ++ [comma], [], by simp⟩)
    · rw [patchStep_none libs a m r c hfirst hcm hc]
      rfl
  · rw [patchStep_of_absent libs t c m hmt, Option.some_bind,
      patchStep_of_absent libs t c n habs]

/-- Commutation when both names occur and `n` occurs first. -/
theorem comm_before (libs : List (Text × Text)) (hplain : PlainNames libs) (c : Bool)
    (n m : Text) (hn : n ∈ libs.map Prod.fst) (hm : m ∈ libs.map Prod.fst) (hnm : n ≠ m)
    (a r a' r' : Text) (heq : a ++ n ++ r = a' ++ m ++ r')
    (hA : ApartInfix (libs.map Prod.fst) (a ++ n ++ r))
    (hfn : ¬ n <:+: a ++ n.dropLast) (hfm : ¬ m <:+: a' ++ m.dropLast)
    (hlt : a.length < a'.length) :
    (patchStep libs (a ++ n ++ r, c) n).bind (fun r => patchStep libs r m)
      = (patchStep libs (a ++ n ++ r, c) m).bind (fun r => patchStep libs r n) := by
  obtain ⟨_, hcn, _, _, _⟩ := hplain n hn
  obtain ⟨hme, hcm, _, _, _⟩ := hplain m hm
  have h0 : a ++ (n ++ r) = a' ++ (m ++ r') := by simpa [List.append_assoc] using heq
  rcases List.append_eq_append_iff.1 h0 with ⟨z, hz1, hz2⟩ | ⟨z, hz1, hz2⟩
  swap
  · exfalso
    have := congrArg List.length hz1
    simp only [List.length_append] at this
    omega
  subst hz1
  by_cases hc : comma ∈ r
  · obtain ⟨x, b, rfl, hcx⟩ := List.eq_append_cons_of_mem hc
    have h1 : (n ++ x) ++ comma :: b = z ++ (m ++ r') := by
      simpa [List.append_assoc] using hz2
    rcases List.append_eq_append_iff.1 h1 with ⟨z2, hz3, hz4⟩ | ⟨z3, hz3, hz4⟩
    · cases z2 with
      | nil =>
        exfalso
        cases m with
        | nil => exact hme rfl
        | cons d m =>
          simp only [List.nil_append, List.cons_append, List.cons.injEq] at hz4
          exact hcm (by simp [hz4.1])
      | cons d b1 =>
        simp only [List.cons_append, List.cons.injEq] at hz4
        obtain ⟨rfl, hb⟩ := hz4
        subst hb
        subst hz3
        -- the text is a ++ n ++ x ++ comma :: (b1 ++ m ++ r')
        have hfm2 : ¬ m <:+: (a ++ fragment libs n ++ comma :: b1) ++ m.dropLast := by
          intro h
          have h2 : m <:+: (a ++ fragment libs n) ++ comma :: (b1 ++ m.dropLast) := by
            simpa [List.append_assoc] using h
          rcases infix_sep hcm h2 with h3 | h3
          · exact hfm ((infix_fragment libs hplain m a n hm h3).trans
              ⟨[], x ++ comma :: b1 ++ m.dropLast, by simp [List.append_assoc]⟩)
          · exact hfm (h3.trans ⟨a ++ n ++ x ++ [comma], [], by simp [List.append_assoc]⟩)
        have hLn : patchStep libs (a ++ n ++ (x ++ comma :: (b1 ++ (m ++ r'))), c) n
            = some (a ++ fragment libs n ++ comma :: (b1 ++ (m ++ r')), true) := by
          have := patchStep_some libs a n x (b1 ++ (m ++ r')) c hfn hcn hcx
          simpa [List.append_assoc] using this
        rw [hLn, Option.some_bind]
        by_cases hc2 : comma ∈ r'
        · obtain ⟨y, b2, rfl, hcy⟩ := List.eq_append_cons_of_mem hc2
          have hRm : patchStep libs (a ++ n ++ (x ++ comma :: (b1 ++ (m ++ (y ++ comma :: b2)))), c) m
              = some ((a ++ (n ++ x ++ comma :: b1)) ++ fragment libs m ++ comma :: b2, true) := by
            have := patchStep_some libs (a ++ (n ++ x ++ comma :: b1)) m y b2 c hfm hcm hcy
            simpa [List.append_assoc] using this
          have hLm : patchStep libs
              (a ++ fragment libs n ++ comma :: (b1 ++ (m ++ (y ++ comma :: b2))), true) m
              = some ((a ++ fragment libs n ++ comma :: b1) ++ fragment libs m ++ comma :: b2,
                  true) := by
            have := patchStep_some libs (a ++ fragment libs n ++ comma :: b1) m y b2 true
              hfm2 hcm hcy
            simpa [List.append_assoc] using this
          have hRn : patchStep libs
              ((a ++ (n ++ x ++ comma :: b1)) ++ fragment libs m ++ comma :: b2, true) n
              = some (a ++ fragment libs n ++ comma :: (b1 ++ fragment libs m ++ comma :: b2),
                  true) := by
            have := patchStep_some libs a n x (b1 ++ fragment libs m ++ comma :: b2) true
              hfn hcn hcx
            simpa [List.append_assoc] using this
          rw [hLm, hRm, Option.some_bind, hRn]
          simp [List.append_assoc]
        · have hRm : patchStep libs (a ++ n ++ (x ++ comma :: (b1 ++ (m ++ r'))), c) m
              = none := by
            have := patchStep_none libs (a ++ (n ++ x ++ comma :: b1)) m r' c hfm hcm hc2
            simpa [List.append_assoc] using this
          have hLm : patchStep libs
              (a ++ fragment libs n ++ comma :: (b1 ++ (m ++ r')), true) m = none := by
            have := patchStep_none libs (a ++ fragment libs n ++ comma :: b1) m r' true
              hfm2 hcm hc2
            simpa [List.append_assoc] using this
          rw [hLm, hRm]
          rfl
    · exfalso
      have hm1 : m <+: z3 := prefix_of_not_mem_sep hcm ⟨r', hz4⟩
      have hm2 : m <:+: n ++ x := hm1.isInfix.trans ⟨z, [], by simp [hz3]⟩
      have hn2 : n <:+: n ++ x := ⟨[], x, by simp⟩
      have hcf : comma ∉ n ++ x := by simp [hcn, hcx]
      exact hnm (hA (n ++ x) ⟨a, comma :: b, by simp [List.append_assoc]⟩ hcf n hn m hm hn2 hm2)
  · have hcr : comma ∉ r' := by
      intro h
      have : comma ∈ n ++ r := by rw [hz2]; simp [h]
      rcases List.mem_append.1 this with h1 | h1
      · exact hcn h1
      · exact hc h1
    rw [patchStep_none libs a n r c hfn hcn hc, heq,
      patchStep_none libs (a ++ z) m r' c hfm hcm hcr]
    rfl

theorem patchStep_comm (libs : List (Text × Text)) (hplain : PlainNames libs) (t : Text)
    (c : Bool) (n m : Text) (hn : n ∈ libs.map Prod.fst) (hm : m ∈ libs.map Prod.fst)
    (hnm : n ≠ m) (hA : ApartInfix (libs.map Prod.fst) t) :
    (patchStep libs (t, c) n).bind (fun r => patchStep libs r m)
      = (patchStep libs (t, c) m).bind (fun r => patchStep libs r n) := by
  obtain ⟨hne, hcn, _, _, _⟩ := hplain n hn
  obtain ⟨hme, hcm, _, _, _⟩ := hplain m hm
  by_cases h1 : n <:+: t
  · by_cases h2 : m <:+: t
    · obtain ⟨a, r, rfl, hfn⟩ := exists_first n t hne h1
      obtain ⟨a', r', heq, hfm⟩ := exists_first m _ hme h2
      rcases Nat.lt_trichotomy a.length a'.length with hlt | hlen | hgt
      · exact comm_before libs hplain c n m hn hm hnm a r a' r' heq hA hfn hfm hlt
      · exfalso
        have h0 : a ++ (n ++ r) = a' ++ (m ++ r') := by simpa [List.append_assoc] using heq
        obtain ⟨_, h3⟩ := List.append_inj h0 hlen
        have hp : m <+: n ++ r := ⟨r', h3.symm⟩
        rcases List.prefix_or_prefix_of_prefix (List.prefix_append n r) hp with h4 | h4
        · exact hnm (hA m h2 hcm n hn m hm h4.isInfix List.infix_rfl)
        · exact hnm (hA n h1 hcn n hn m hm List.infix_rfl h4.isInfix)
      · have h5 := comm_before libs hplain c m n hm hn (Ne.symm hnm) a' r' a r heq.symm
          (heq ▸ hA) hfm hfn hgt
        rw [← heq] at h5
        exact h5.symm
    · exact (comm_absent libs hplain t c m n hm hn h2).symm
  · exact comm_absent libs hplain t c n m hn hm h1

theorem patchStep_apart (libs : List (Text × Text)) (hplain : PlainNames libs) (t : Text)
    (c : Bool) (n : Text) (hn : n ∈ libs.map Prod.fst) (hA : ApartInfix (libs.map Prod.fst) t)
    (r : Text × Bool) (h : patchStep libs (t, c) n = some r) :
    ApartInfix (libs.map Prod.fst) r.1 := by
  obtain ⟨hne, hcn, _, _, _⟩ := hplain n hn
  by_cases h1 : n <:+: t
  · obtain ⟨a, q, rfl, hfn⟩ := exists_first n t hne h1
    by_cases hc : comma ∈ q
    · obtain ⟨x, b, rfl, hcx⟩ := List.eq_append_cons_of_mem hc
      rw [← List.append_assoc] at h hA
      rw [patchStep_some libs a n x b c hfn hcn hcx] at h
      cases h
      exact apart_step libs hplain a n x b hA
    · rw [patchStep_none libs a n q c hfn hcn hc] at h
      cases h
  · rw [patchStep_of_absent libs t c n h1] at h
    cases h
    exact hA

theorem patchLoop_cons (libs : List (Text × Text)) (acc : Text × Bool) (n : Text)
    (order : List Text) :
    patchLoop libs acc (n :: order)
      = (patchStep libs acc n).bind (fun r => patchLoop libs r order) := by
  simp only [patchLoop]
  cases patchStep libs acc n <;> rfl

theorem patchLoop_perm (libs : List (Text × Text)) (hplain : PlainNames libs)
    (l1 l2 : List Text) (hp : l1.Perm l2) (hsub : ∀ n ∈ l1, n ∈ libs.map Prod.fst)
    (hnd : l1.Nodup) :
    ∀ acc : Text × Bool, ApartInfix (libs.map Prod.fst) acc.1 →
      patchLoop libs acc l1 = patchLoop libs acc l2 := by
  induction hp with
  | nil => intro _ _; rfl
  | cons x _ ih =>
    intro acc hA
    rw [patchLoop_cons, patchLoop_cons]
    cases hs : patchStep libs acc x with
    | none => rfl
    | some r =>
      simp only [Option.some_bind]
      exact ih (fun n hn => hsub n (List.mem_cons_of_mem _ hn)) (List.nodup_cons.1 hnd).2 r
        (patchStep_apart libs hplain acc.1 acc.2 x (hsub x (by simp)) hA r hs)
  | swap x y l =>
    intro acc hA
    have hxy : y ≠ x := by
      intro h
      subst h
      simp at hnd
    have hc := patchStep_comm libs hplain acc.1 acc.2 y x (hsub y (by simp)) (hsub x (by simp))
      hxy hA
    simp only [patchLoop_cons]
    rw [← Option.bind_assoc, ← Option.bind_assoc, hc]
  | trans hp1 _ ih1 ih2 =>
    intro acc hA
    rw [ih1 hsub hnd acc hA]
    exact ih2 (fun n hn => hsub n (hp1.symm.subset hn)) (hp1.nodup_iff.1 hnd) acc hA

theorem fields_spec (t : Text) :
    ∃ f fs, fields t = f :: fs ∧ f <+: t ∧ comma ∉ f ∧
      (∀ g, g <+: t → comma ∉ g → g <+: f) ∧ ∀ h ∈ fs, h <:+: t ∧ comma ∉ h := by
  induction t with
  | nil =>
    refine ⟨[], [], rfl, List.prefix_rfl, by simp, ?_, by simp⟩
    intro g hg _
    exact hg
  | cons c cs ih =>
    obtain ⟨f0, fs0, hf, hp, hc, hmax, hrest⟩ := ih
    by_cases hcc : c = comma
    · subst hcc
      refine ⟨[], f0 :: fs0, by simp [fields, hf], List.nil_prefix, by simp, ?_, ?_⟩
      · intro g hg hcg
        rcases List.prefix_cons_iff.1 hg with h | ⟨g', h, _⟩
        · rw [h]
        · exact absurd (by simp [h]) hcg
      · intro h hh
        rcases List.mem_cons.1 hh with h1 | h1
        · subst h1
          exact ⟨hp.isInfix.trans (List.suffix_cons _ _).isInfix, hc⟩
        · exact ⟨(hrest h h1).1.trans (List.suffix_cons _ _).isInfix, (hrest h h1).2⟩
    · refine ⟨c :: f0, fs0, by simp [fields, hf, hcc], ?_, ?_, ?_, ?_⟩
      · exact (List.prefix_cons_inj c).2 hp
      · simp only [List.mem_cons, not_or]
        exact ⟨fun h => hcc h.symm, hc⟩
      · intro g hg hcg
        rcases List.prefix_cons_iff.1 hg with h | ⟨g', h, hg'⟩
        · rw [h]; exact List.nil_prefix
        · subst h
          exact (List.prefix_cons_inj c).2 (hmax g' hg' (fun h => hcg (by simp [h])))
      · intro h hh
        exact ⟨(hrest h hh).1.trans (List.suffix_cons _ _).isInfix, (hrest h hh).2⟩

theorem fields_cover (t g : Text) (hg : g <:+: t) (hc : comma ∉ g) :
    ∃ f ∈ fields t, g <:+: f := by
  induction t with
  | nil =>
    rw [List.infix_nil.1 hg]
    exact ⟨[], by simp [fields], List.infix_rfl⟩
  | cons c cs ih =>
    rcases List.infix_cons_iff.1 hg with h | h
    · obtain ⟨f, fs, hf, _, _, hmax, _⟩ := fields_spec (c :: cs)
      exact ⟨f, by simp [hf], (hmax g h hc).isInfix⟩
    · obtain ⟨f, hf, hgf⟩ := ih h
      obtain ⟨f0, fs0, hf0, _⟩ := fields_spec cs
      by_cases hcc : c = comma
      · exact ⟨f, by simp [fields, hcc, hf], hgf⟩
      · rw [hf0] at hf
        rcases List.mem_cons.1 hf with h1 | h1
        · subst h1
          exact ⟨c :: f, by simp [fields, hcc, hf0],
            hgf.trans (List.suffix_cons _ _).isInfix⟩
        · exact ⟨f, by simp [fields, hcc, hf0, h1], hgf⟩

theorem apart_iff (names : List Text) (t : Text) : Apart names t ↔ ApartInfix names t := by
  constructor
  · intro h f hf hc n hn m hm h1 h2
    obtain ⟨F, hF, hfF⟩ := fields_cover t f hf hc
    exact h F hF n hn m hm (h1.trans hfF) (h2.trans hfF)
  · intro h F hF n hn m hm h1 h2
    obtain ⟨f, fs, hf, hp, hc, _, hrest⟩ := fields_spec t
    rw [hf] at hF
    rcases List.mem_cons.1 hF with h3 | h3
    · subst h3
      exact h F hp.isInfix hc n hn m hm h1 h2
    · exact h F (hrest F h3).1 (hrest F h3).2 n hn m hm h1 h2

/-- Claim C10, amended: when the keys of the mapping are pairwise different, every library name
is plain (`PlainNames`) and no comma-separated field of the manifest contains two different
library names (`Apart`), the patch loop gives the same outcome (the same text and `changes`
flag, or a panic in both) for every two orders of the keys. -/
theorem patchLoop_order_independent (libs : List (Text × Text)) (order1 order2 : List Text)
    (t : Text) (c : Bool) (hkeys : (libs.map Prod.fst).Nodup)
    (h1 : order1.Perm (libs.map Prod.fst)) (h2 : order2.Perm (libs.map Prod.fst))
    (hplain : PlainNames libs) (hapart : Apart (libs.map Prod.fst) t) :
    patchLoop libs (t, c) order1 = patchLoop libs (t, c) order2 :=
  patchLoop_perm libs hplain order1 order2 (h1.trans h2.symm) (fun _ hn => h1.subset hn)
    (h1.nodup_iff.2 hkeys) (t, c) ((apart_iff _ _).1 hapart)

/-- Claim C10, amended, at a concrete input: `react` and `vue`, each in a field of its own,
are patched to the same text in both orders. -/
theorem patchLoop_order_independent_witness :
    patchLoop twoLibs (twoManifest, false) [bytes "vue", bytes "react"]
      = patchLoop twoLibs (twoManifest, false) [bytes "react", bytes "vue"] ∧
    patchLoop twoLibs (twoManifest, false) [bytes "react", bytes "vue"]
      = some (bytes "\"react\": \"18.2.0\", \"vue\": \"3.4.0\",", true) :=
  ⟨patchLoop_order_independent twoLibs [bytes "vue", bytes "react"]
      [bytes "react", bytes "vue"] twoManifest false (by decide)
      (List.Perm.swap _ _ _) (List.Perm.refl _) (by unfold PlainNames; decide)
      (by unfold Apart; decide),
   by decide⟩

/-- Claim C10 as stated fails: with the libraries `core` and `@angular/core` and a manifest
that declares both, the patch loop completes in both orders and the two resulting texts
differ. -/
theorem patchLoop_order_dependent :
    patchLoop angularLibs (angularManifest, false) [bytes "core", bytes "@angular/core"]
      = some (bytes "\"@angular/core\": \"2\", \"core\": \"0\",", true) ∧
    patchLoop angularLibs (angularManifest, false) [bytes "@angular/core", bytes "core"]
      = some (bytes "\"@angular/core\": \"1\", \"core\": \"0\",", true) ∧
    bytes "\"@angular/core\": \"2\", \"core\": \"0\","
      ≠ bytes "\"@angular/core\": \"1\", \"core\": \"0\"," := by
  decide

end DepUpdater
